import Mathlib

/-!
# Verification of the `language_colors` core

A shallow embedding of the core of the `language_colors` repository
(`src/main.rs`): the `Color` model (hex web-color parsing and formatting,
Euclidean RGB distance) and the greedy nearest-color chain builder in
`main`, together with proofs of the specified properties.

Modelling conventions:
* machine integers (`i64`) become `Int`; the only place wrapping could
  matter (`{:02X}` formatting) applies an explicit `% 2^64`;
* fallible code (`unwrap` panics in `Color::from_webcolor`) returns
  `Option`;
* the `BTreeMap<String, Color>` is a list of (name, color) pairs whose
  keys are strictly increasing, matching its name-ascending iteration
  order;
* the `f64` square root in `euclidean_distance` becomes `Real.sqrt` of
  the integer radicand; the program only compares distances strictly,
  and `Real.sqrt` is strictly monotone on nonnegative reals, so the
  chain builder is embedded with integer squared-distance comparisons,
  which order identically.
-/

namespace LanguageColors

/-- RGB color with unchecked integer channels, mirroring the Rust
`struct Color { red: i64, green: i64, blue: i64 }`. -/
structure Color where
  red : Int
  green : Int
  blue : Int
deriving DecidableEq

/-- Value of a single hex digit, mirroring `char::to_digit(16)` as used by
`i64::from_str_radix(_, 16)`: accepts `0`-`9` (values 48-57), `a`-`f`
(97-102), `A`-`F` (65-70). -/
def hexVal? (c : Char) : Option Nat :=
  if 48 ≤ c.toNat ∧ c.toNat ≤ 57 then some (c.toNat - 48)
  else if 97 ≤ c.toNat ∧ c.toNat ≤ 102 then some (c.toNat - 87)
  else if 65 ≤ c.toNat ∧ c.toNat ≤ 70 then some (c.toNat - 55)
  else none

/-- Accumulating digit loop of `from_str_radix` (radix 16).  The source's
overflow check never fires on the inputs `from_webcolor` feeds it (chunks
of at most two digits), so it is not modelled. -/
def parseDigitsAux : Nat → List Char → Option Nat
  | acc, [] => some acc
  | acc, c :: cs =>
    match hexVal? c with
    | none => none
    | some v => parseDigitsAux (16 * acc + v) cs

/-- Digit run of `from_str_radix`: at least one digit is required. -/
def parseDigits : List Char → Option Nat
  | [] => none
  | cs => parseDigitsAux 0 cs

/-- `i64::from_str_radix(s, 16)`: an optional `+`/`-` sign followed by a
nonempty run of base-16 digits. -/
def fromStrRadix16 (cs : List Char) : Option Int :=
  match cs with
  | '+' :: rest => (parseDigits rest).map (fun n => Int.ofNat n)
  | '-' :: rest => (parseDigits rest).map (fun n => -Int.ofNat n)
  | _ => (parseDigits cs).map (fun n => Int.ofNat n)

/-- `slice::chunks(2)` on the character array. -/
def chunks2 : List Char → List (List Char)
  | [] => []
  | [a] => [[a]]
  | a :: b :: rest => [a, b] :: chunks2 rest

/-- Body of `Color::from_webcolor` after the `#` strip: take the first
three chunks of the chunk iterator and parse each in base 16.  The source
unwraps each step, panicking when a chunk is missing or fails to parse;
failure is modelled as `none`. -/
def from_webcolorChars (cs : List Char) : Option Color :=
  match chunks2 cs with
  | c1 :: c2 :: c3 :: _ =>
    match fromStrRadix16 c1, fromStrRadix16 c2, fromStrRadix16 c3 with
    | some r, some g, some b => some ⟨r, g, b⟩
    | _, _, _ => none
  | _ => none

/-- `Color::from_webcolor`: `trim_start_matches("#")` removes every
leading `#`, then the chunked base-16 parse runs on what remains. -/
def Color.from_webcolor (s : String) : Option Color :=
  from_webcolorChars (s.data.dropWhile (· == '#'))

/-- Uppercase hex digit for a value below 16, as printed by `{:02X}`. -/
def hexDigitChar (v : Nat) : Char :=
  if v < 10 then Char.ofNat (48 + v) else Char.ofNat (55 + v)

/-- Uppercase hex digits of `n`, most significant first (`{:X}`).  The
fuel argument only bounds the recursion depth: 64 units cover every value
below `2 ^ 64 = 16 ^ 16`, i.e. every bit pattern of an `i64`. -/
def natToHexUpperAux : Nat → Nat → List Char
  | 0, _ => []
  | fuel + 1, n =>
    if n < 16 then [hexDigitChar n]
    else natToHexUpperAux fuel (n / 16) ++ [hexDigitChar (n % 16)]

def natToHexUpper (n : Nat) : List Char := natToHexUpperAux 64 n

/-- Zero-pad on the left to width 2 (the `02` in `{:02X}`). -/
def pad2 (l : List Char) : List Char := List.replicate (2 - l.length) '0' ++ l

/-- One channel as rendered by `{:02X}` on an `i64`: the channel's 64-bit
two's-complement bit pattern in uppercase hex, zero-padded to width 2. -/
def chanHex (n : Int) : List Char := pad2 (natToHexUpper ((n % (2 : Int) ^ 64).toNat))

/-- `Color::as_webcolor`: `format!("#{:02X}{:02X}{:02X}", red, green, blue)`. -/
def Color.as_webcolor (c : Color) : String :=
  ⟨'#' :: (chanHex c.red ++ chanHex c.green ++ chanHex c.blue)⟩

/-- The squared Euclidean distance: the exact integer radicand computed by
`Color::euclidean_distance` before the `f64` square root
(`.pow(2)` is written as self-multiplication). -/
def sqDist (a b : Color) : Int :=
  (b.red - a.red) * (b.red - a.red) + (b.green - a.green) * (b.green - a.green) +
    (b.blue - a.blue) * (b.blue - a.blue)

/-- `Color::euclidean_distance`: the square root of the summed squared
channel differences, modelled over ℝ. -/
noncomputable def Color.euclidean_distance (a b : Color) : ℝ :=
  Real.sqrt ((sqDist a b : ℤ) : ℝ)

/-- One (name, Color) pair of the ColorSet / Chain. -/
abbrev Entry := String × Color

/-- Body of the inner `for (s_lang, s_color) in &languages_colors` loop:
skip `f` itself, skip used names, otherwise keep the candidate if no best
exists yet or it is strictly closer than the running best.  The running
best is paired with its squared distance; the source keeps the `f64`
distance in `shortest_distance`, which orders identically. -/
def innerStep (fLang : String) (fColor : Color) (used : List String)
    (acc : Option (Entry × Int)) (s : Entry) : Option (Entry × Int) :=
  if s.1 = fLang then acc
  else if s.1 ∈ used then acc
  else
    match acc with
    | none => some (s, sqDist fColor s.2)
    | some (b, bd) =>
      if sqDist fColor s.2 < bd then some (s, sqDist fColor s.2) else some (b, bd)

/-- The whole inner loop: the nearest unused candidate, first seen wins
ties. -/
def findShortest (l : List Entry) (fLang : String) (fColor : Color)
    (used : List String) : Option Entry :=
  (l.foldl (innerStep fLang fColor used) none).map Prod.fst

/-- The three mutable variables of `main`'s sorting phase:
`used_languages`, `is_first_color`, `nearest_colors`. -/
structure ChainState where
  used : List String
  isFirst : Bool
  out : List Entry
deriving DecidableEq

/-- One iteration of the outer `for (f_lang, f_color) in languages_colors`
loop: search for the nearest unused candidate, then (on the very first
iteration only) append `f` itself and mark it used, then append the found
candidate (if any) and mark it used. -/
def outerStep (l : List Entry) (st : ChainState) (f : Entry) : ChainState :=
  let shortest := findShortest l f.1 f.2 st.used
  let used1 := if st.isFirst then f.1 :: st.used else st.used
  let out1 := if st.isFirst then st.out ++ [f] else st.out
  match shortest with
  | none => ⟨used1, false, out1⟩
  | some s => ⟨s.1 :: used1, false, out1 ++ [s]⟩

/-- The full sorting phase of `main`: fold the outer loop over the
ColorSet (listed in the `BTreeMap`'s name-ascending order) and return
`nearest_colors`. -/
def buildChain (l : List Entry) : List Entry :=
  (l.foldl (outerStep l) ⟨[], true, []⟩).out

/-! ## Spec-side definitions

These follow the specification's words, for comparison with the code
definitions above. -/

/-- Spec vocabulary: a hex character (`0`-`9`, `a`-`f`, `A`-`F`). -/
def isHexDigitChar (c : Char) : Prop :=
  (48 ≤ c.toNat ∧ c.toNat ≤ 57) ∨ (97 ≤ c.toNat ∧ c.toNat ≤ 102) ∨
    (65 ≤ c.toNat ∧ c.toNat ≤ 70)

instance (c : Char) : Decidable (isHexDigitChar c) := by
  unfold isHexDigitChar; infer_instance

/-- Spec vocabulary: strip one optional leading `#`. -/
def stripOptHash : List Char → List Char
  | '#' :: r => r
  | r => r

/-- Spec claim C6's failure condition: the string remaining after
stripping the optional leading `#` is exactly 6 hex characters. -/
def specSixHexAfterStrip (s : String) : Prop :=
  (stripOptHash s.data).length = 6 ∧ ∀ c ∈ stripOptHash s.data, isHexDigitChar c

instance (s : String) : Decidable (specSixHexAfterStrip s) := by
  unfold specSixHexAfterStrip; infer_instance

/-- Drop one optional leading sign character. -/
def dropSign (cs : List Char) : List Char :=
  match cs with
  | c :: r => if c = '+' ∨ c = '-' then r else cs
  | [] => []

/-- A character group accepted by the base-16 integer parse: an optional
sign followed by a nonempty run of hex digits. -/
def chunkOk (cs : List Char) : Prop :=
  dropSign cs ≠ [] ∧ ∀ c ∈ dropSign cs, isHexDigitChar c

instance (cs : List Char) : Decidable (chunkOk cs) := by
  unfold chunkOk; infer_instance

/-- Amended success condition for `Color::from_webcolor`: after stripping
every leading `#`, at least five characters remain and each of the first
three 2-character groups is an acceptable base-16 group. -/
def codeOk (s : String) : Prop :=
  5 ≤ (s.data.dropWhile (· == '#')).length ∧
    chunkOk ((s.data.dropWhile (· == '#')).take 2) ∧
    chunkOk (((s.data.dropWhile (· == '#')).drop 2).take 2) ∧
    chunkOk (((s.data.dropWhile (· == '#')).drop 4).take 2)

instance (s : String) : Decidable (codeOk s) := by
  unfold codeOk; infer_instance

/-- Spec vocabulary: uppercase a lowercase hex letter, leave any other
character unchanged. -/
def upperHexChar (c : Char) : Char :=
  if 97 ≤ c.toNat ∧ c.toNat ≤ 102 then Char.ofNat (c.toNat - 32) else c

/-- A color as a point of Euclidean 3-space. -/
noncomputable def toE3 (c : Color) : EuclideanSpace ℝ (Fin 3) :=
  ![(c.red : ℝ), (c.green : ℝ), (c.blue : ℝ)]

/-- Invariant of the sorting loop's state: the used set is exactly the set
of names appearing in the output, output names are pairwise distinct, and
every output pair comes from the input list. -/
def ChainInv (l : List Entry) (st : ChainState) : Prop :=
  (∀ x, x ∈ st.used ↔ x ∈ st.out.map Prod.fst) ∧ (st.out.map Prod.fst).Nodup ∧
    ∀ p ∈ st.out, p ∈ l

end LanguageColors

/-! ## Lemmas about hex digits and the base-16 parse -/

namespace LanguageColors

theorem hexVal?_isSome_iff (c : Char) : (hexVal? c).isSome ↔ isHexDigitChar c := by
  unfold hexVal? isHexDigitChar
  split_ifs with h1 h2 h3 <;> simp [*]

theorem hexVal?_lt16 {c : Char} {v : Nat} (h : hexVal? c = some v) : v < 16 := by
  unfold hexVal? at h
  split_ifs at h with h1 h2 h3 <;> (injection h with h; omega)

theorem hexVal?_upperHexChar {c : Char} {v : Nat} (h : hexVal? c = some v) :
    hexDigitChar v = upperHexChar c := by
  unfold hexVal? at h
  unfold hexDigitChar upperHexChar
  split_ifs at h with h1 h2 h3 <;> injection h with h
  · have hv : v < 10 := by omega
    have he : 48 + v = c.toNat := by omega
    have hu : ¬ (97 ≤ c.toNat ∧ c.toNat ≤ 102) := by omega
    simp [hv, he, hu, Char.ofNat_toNat]
  · have hv : ¬ v < 10 := by omega
    have he : 55 + v = c.toNat - 32 := by omega
    have hu : 97 ≤ c.toNat ∧ c.toNat ≤ 102 := by omega
    simp [hv, he, hu]
  · have hv : ¬ v < 10 := by omega
    have he : 55 + v = c.toNat := by omega
    have hu : ¬ (97 ≤ c.toNat ∧ c.toNat ≤ 102) := by omega
    simp [hv, he, hu, Char.ofNat_toNat]

theorem hexVal?_hexDigitChar {v : Nat} (h : v < 16) : hexVal? (hexDigitChar v) = some v := by
  interval_cases v <;> decide

theorem hexDigitChar_ne_hash {v : Nat} (h : v < 16) : (hexDigitChar v == '#') = false := by
  interval_cases v <;> decide

theorem isHexDigitChar_ne_hash {c : Char} (h : isHexDigitChar c) : (c == '#') = false := by
  have : c ≠ '#' := by
    intro hc
    subst hc
    revert h
    decide
  simpa using this

theorem isHexDigitChar_ne_sign {c : Char} (h : isHexDigitChar c) : c ≠ '+' ∧ c ≠ '-' := by
  constructor <;> (intro hc; subst hc; revert h; decide)

theorem parseDigitsAux_isSome (cs : List Char) :
    ∀ acc, (parseDigitsAux acc cs).isSome ↔ ∀ c ∈ cs, isHexDigitChar c := by
  induction cs with
  | nil => intro acc; simp [parseDigitsAux]
  | cons c cs ih =>
    intro acc
    rcases hv : hexVal? c with _ | v
    · have : ¬ isHexDigitChar c := by
        rw [← hexVal?_isSome_iff, hv]
        simp
      simp [parseDigitsAux, hv, this]
    · have : isHexDigitChar c := by
        rw [← hexVal?_isSome_iff, hv]
        simp
      simp [parseDigitsAux, hv, this, ih]

theorem parseDigits_isSome (cs : List Char) :
    (parseDigits cs).isSome ↔ cs ≠ [] ∧ ∀ c ∈ cs, isHexDigitChar c := by
  cases cs with
  | nil => simp [parseDigits]
  | cons c cs =>
    have : parseDigits (c :: cs) = parseDigitsAux 0 (c :: cs) := rfl
    rw [this, parseDigitsAux_isSome]
    simp

theorem parseDigits_cons (c : Char) (cs : List Char) :
    parseDigits (c :: cs) = parseDigitsAux 0 (c :: cs) := rfl

theorem parseDigits_one {c : Char} {v : Nat} (h : hexVal? c = some v) :
    parseDigits [c] = some v := by
  rw [parseDigits_cons]
  simp [parseDigitsAux, h]

theorem parseDigits_two {c1 c2 : Char} {v1 v2 : Nat}
    (h1 : hexVal? c1 = some v1) (h2 : hexVal? c2 = some v2) :
    parseDigits [c1, c2] = some (16 * v1 + v2) := by
  rw [parseDigits_cons]
  simp [parseDigitsAux, h1, h2]

theorem fromStrRadix16_two {c1 c2 : Char} {v1 v2 : Nat}
    (h1 : hexVal? c1 = some v1) (h2 : hexVal? c2 = some v2) :
    fromStrRadix16 [c1, c2] = some ((16 * v1 + v2 : Nat) : Int) := by
  have hp : c1 ≠ '+' := by
    intro hc
    rw [hc] at h1
    simp [hexVal?] at h1
  have hm : c1 ≠ '-' := by
    intro hc
    rw [hc] at h1
    simp [hexVal?] at h1
  unfold fromStrRadix16
  split
  · next rest heq =>
    exact absurd (List.head_eq_of_cons_eq heq.symm).symm hp
  · next rest heq =>
    exact absurd (List.head_eq_of_cons_eq heq.symm).symm hm
  · rw [parseDigits_two h1 h2]
    rfl

end LanguageColors


/-! ## Lemmas about chunking and the parse's success condition -/

namespace LanguageColors

theorem isSome_mapToInt (o : Option Nat) (f : Nat → Int) : (o.map f).isSome = o.isSome := by
  cases o <;> rfl

theorem fromStrRadix16_isSome_iff (cs : List Char) :
    (fromStrRadix16 cs).isSome ↔ chunkOk cs := by
  unfold fromStrRadix16
  split
  · next rest =>
    rw [isSome_mapToInt, parseDigits_isSome]
    simp [chunkOk, dropSign]
  · next rest =>
    rw [isSome_mapToInt, parseDigits_isSome]
    simp [chunkOk, dropSign]
  · next hplus hminus =>
    rw [isSome_mapToInt, parseDigits_isSome]
    cases cs with
    | nil => simp [chunkOk, dropSign]
    | cons c r =>
      have hp : c ≠ '+' := fun hc => hplus r (by rw [hc])
      have hm : c ≠ '-' := fun hc => hminus r (by rw [hc])
      simp [chunkOk, dropSign, hp, hm]

theorem chunks2_cons2 (a b : Char) (t : List Char) :
    chunks2 (a :: b :: t) = [a, b] :: chunks2 t := rfl

theorem from_webcolorChars_eq (a b c d e : Char) (t : List Char) :
    from_webcolorChars (a :: b :: c :: d :: e :: t) =
      match fromStrRadix16 [a, b], fromStrRadix16 [c, d],
          fromStrRadix16 ((e :: t).take 2) with
      | some r, some g, some bl => some ⟨r, g, bl⟩
      | _, _, _ => none := by
  cases t with
  | nil => rfl
  | cons x t2 => rfl

theorem from_webcolorChars_isSome_parts (cs : List Char) :
    (from_webcolorChars cs).isSome ↔
      5 ≤ cs.length ∧ (fromStrRadix16 (cs.take 2)).isSome ∧
        (fromStrRadix16 ((cs.drop 2).take 2)).isSome ∧
        (fromStrRadix16 ((cs.drop 4).take 2)).isSome := by
  match cs with
  | [] => simp [from_webcolorChars, chunks2]
  | [a] => simp [from_webcolorChars, chunks2]
  | [a, b] => simp [from_webcolorChars, chunks2]
  | [a, b, c] => simp [from_webcolorChars, chunks2]
  | [a, b, c, d] => simp [from_webcolorChars, chunks2]
  | a :: b :: c :: d :: e :: t =>
    have hlen : 5 ≤ (a :: b :: c :: d :: e :: t).length := by
      simp [List.length_cons]
    rw [from_webcolorChars_eq]
    have h1 : (a :: b :: c :: d :: e :: t).take 2 = [a, b] := rfl
    have h2 : ((a :: b :: c :: d :: e :: t).drop 2).take 2 = [c, d] := rfl
    have h3 : ((a :: b :: c :: d :: e :: t).drop 4).take 2 = (e :: t).take 2 := rfl
    rw [h1, h2, h3]
    rcases hr : fromStrRadix16 [a, b] with _ | r <;>
      rcases hg : fromStrRadix16 [c, d] with _ | g <;>
        rcases hb : fromStrRadix16 ((e :: t).take 2) with _ | bl <;>
          simp [hlen]

theorem from_webcolorChars_isSome_iff (cs : List Char) :
    (from_webcolorChars cs).isSome ↔
      5 ≤ cs.length ∧ chunkOk (cs.take 2) ∧ chunkOk ((cs.drop 2).take 2) ∧
        chunkOk ((cs.drop 4).take 2) := by
  rw [from_webcolorChars_isSome_parts, fromStrRadix16_isSome_iff,
    fromStrRadix16_isSome_iff, fromStrRadix16_isSome_iff]

end LanguageColors

/-! ## Lemmas about hex formatting -/

namespace LanguageColors

theorem natToHexUpperAux_small {n : Nat} (fuel : Nat) (h : n < 16) :
    natToHexUpperAux (fuel + 1) n = [hexDigitChar n] := by
  simp [natToHexUpperAux, h]

theorem pad2_natToHexUpper_byte {n : Nat} (h : n < 256) :
    pad2 (natToHexUpper n) = [hexDigitChar (n / 16), hexDigitChar (n % 16)] := by
  by_cases h16 : n < 16
  · have hd : n / 16 = 0 := Nat.div_eq_of_lt h16
    have hm : n % 16 = n := Nat.mod_eq_of_lt h16
    have : natToHexUpper n = [hexDigitChar n] := natToHexUpperAux_small 63 h16
    rw [this, hd, hm]
    have h0 : hexDigitChar 0 = '0' := by decide
    simp [pad2, h0]
  · have hdiv : n / 16 < 16 := by omega
    have : natToHexUpper n = [hexDigitChar (n / 16), hexDigitChar (n % 16)] := by
      show natToHexUpperAux (63 + 1) n = _
      rw [natToHexUpperAux]
      simp [h16, natToHexUpperAux_small 62 hdiv]
    rw [this]
    simp [pad2]

theorem chanHex_byte {n : Int} (h0 : 0 ≤ n) (h : n < 256) :
    chanHex n = [hexDigitChar (n.toNat / 16), hexDigitChar (n.toNat % 16)] := by
  have hmod : n % (2 : Int) ^ 64 = n := Int.emod_eq_of_lt h0 (by omega)
  have hlt : n.toNat < 256 := by omega
  rw [chanHex, hmod, pad2_natToHexUpper_byte hlt]

theorem as_webcolor_data_of_bytes (c : Color)
    (hr0 : 0 ≤ c.red) (hr : c.red < 256) (hg0 : 0 ≤ c.green) (hg : c.green < 256)
    (hb0 : 0 ≤ c.blue) (hb : c.blue < 256) :
    (Color.as_webcolor c).data =
      ['#', hexDigitChar (c.red.toNat / 16), hexDigitChar (c.red.toNat % 16),
        hexDigitChar (c.green.toNat / 16), hexDigitChar (c.green.toNat % 16),
        hexDigitChar (c.blue.toNat / 16), hexDigitChar (c.blue.toNat % 16)] := by
  rw [Color.as_webcolor]
  rw [chanHex_byte hr0 hr, chanHex_byte hg0 hg, chanHex_byte hb0 hb]
  rfl

end LanguageColors

/-! ## Support lemmas relating the strip and the spec's six-hex form -/

namespace LanguageColors

theorem chunkOk_of_hex {cs : List Char} (hne : cs ≠ [])
    (hhex : ∀ c ∈ cs, isHexDigitChar c) : chunkOk cs := by
  cases cs with
  | nil => exact absurd rfl hne
  | cons c r =>
    have hc := hhex c (by simp)
    have hsign := isHexDigitChar_ne_sign hc
    have hds : dropSign (c :: r) = c :: r := by
      simp [dropSign, hsign.1, hsign.2]
    rw [chunkOk, hds]
    exact ⟨by simp, hhex⟩

theorem dropWhile_eq_stripOptHash {l : List Char} (h6 : (stripOptHash l).length = 6)
    (hhex : ∀ c ∈ stripOptHash l, isHexDigitChar c) :
    l.dropWhile (· == '#') = stripOptHash l := by
  cases l with
  | nil => simp [stripOptHash] at h6
  | cons c r =>
    by_cases hc : c = '#'
    · subst hc
      have hr : stripOptHash ('#' :: r) = r := rfl
      rw [hr] at h6 hhex
      rw [hr]
      cases r with
      | nil => simp at h6
      | cons c2 r2 =>
        have hc2 : isHexDigitChar c2 := hhex c2 (by simp)
        simp [List.dropWhile_cons, isHexDigitChar_ne_hash hc2]
    · have hr : stripOptHash (c :: r) = c :: r := by
        unfold stripOptHash
        split
        · next heq => exact absurd (List.head_eq_of_cons_eq heq) hc
        · rfl
      rw [hr] at hhex
      rw [hr]
      have hcx : isHexDigitChar c := hhex c (by simp)
      simp [List.dropWhile_cons, isHexDigitChar_ne_hash hcx]

end LanguageColors

/-! ## Value-level parse lemmas -/

namespace LanguageColors

theorem from_webcolorChars_six {c1 c2 c3 c4 c5 c6 : Char} {v1 v2 v3 v4 v5 v6 : Nat}
    (h1 : hexVal? c1 = some v1) (h2 : hexVal? c2 = some v2)
    (h3 : hexVal? c3 = some v3) (h4 : hexVal? c4 = some v4)
    (h5 : hexVal? c5 = some v5) (h6 : hexVal? c6 = some v6) :
    from_webcolorChars [c1, c2, c3, c4, c5, c6] =
      some ⟨Int.ofNat (16 * v1 + v2), Int.ofNat (16 * v3 + v4),
        Int.ofNat (16 * v5 + v6)⟩ := by
  have e56 : ((c5 :: [c6]).take 2) = [c5, c6] := rfl
  rw [from_webcolorChars_eq, e56, fromStrRadix16_two h1 h2, fromStrRadix16_two h3 h4,
    fromStrRadix16_two h5 h6]
  rfl

theorem dropWhile_hash_cons {c : Char} (hc : (c == '#') = false) (t : List Char) :
    ('#' :: c :: t).dropWhile (· == '#') = c :: t := by
  simp [List.dropWhile_cons, hc]

theorem dropWhile_no_hash {c : Char} (hc : (c == '#') = false) (t : List Char) :
    (c :: t).dropWhile (· == '#') = c :: t := by
  simp [List.dropWhile_cons, hc]

end LanguageColors

/-! ## The inner nearest-neighbor search -/

namespace LanguageColors

theorem innerStep_skip_self {fLang : String} {fColor : Color} {used : List String}
    {s : Entry} (h : s.1 = fLang) (acc : Option (Entry × Int)) :
    innerStep fLang fColor used acc s = acc := by
  simp [innerStep, h]

theorem innerStep_skip_used {fLang : String} {fColor : Color} {used : List String}
    {s : Entry} (h : s.1 ∈ used) (acc : Option (Entry × Int)) :
    innerStep fLang fColor used acc s = acc := by
  simp [innerStep, h]

theorem innerStep_cand_none {fLang : String} {fColor : Color} {used : List String}
    {s : Entry} (h1 : s.1 ≠ fLang) (h2 : s.1 ∉ used) :
    innerStep fLang fColor used none s = some (s, sqDist fColor s.2) := by
  simp [innerStep, h1, h2]

theorem innerStep_cand_some_lt {fLang : String} {fColor : Color} {used : List String}
    {s b : Entry} {bd : Int} (h1 : s.1 ≠ fLang) (h2 : s.1 ∉ used)
    (h3 : sqDist fColor s.2 < bd) :
    innerStep fLang fColor used (some (b, bd)) s = some (s, sqDist fColor s.2) := by
  simp [innerStep, h1, h2, h3]

theorem innerStep_cand_some_ge {fLang : String} {fColor : Color} {used : List String}
    {s b : Entry} {bd : Int} (h1 : s.1 ≠ fLang) (h2 : s.1 ∉ used)
    (h3 : ¬ sqDist fColor s.2 < bd) :
    innerStep fLang fColor used (some (b, bd)) s = some (b, bd) := by
  simp [innerStep, h1, h2, h3]

theorem innerStep_isSome {fLang : String} {fColor : Color} {used : List String}
    {acc : Option (Entry × Int)} (ha : acc.isSome) (s : Entry) :
    (innerStep fLang fColor used acc s).isSome := by
  rcases acc with _ | ⟨b, bd⟩
  · simp at ha
  · by_cases h1 : s.1 = fLang
    · rw [innerStep_skip_self h1]
      rfl
    by_cases h2 : s.1 ∈ used
    · rw [innerStep_skip_used h2]
      rfl
    by_cases h3 : sqDist fColor s.2 < bd
    · rw [innerStep_cand_some_lt h1 h2 h3]
      rfl
    · rw [innerStep_cand_some_ge h1 h2 h3]
      rfl

theorem foldl_innerStep_isSome {fLang : String} {fColor : Color} {used : List String}
    (r : List Entry) {acc : Option (Entry × Int)} (ha : acc.isSome) :
    (r.foldl (innerStep fLang fColor used) acc).isSome := by
  induction r generalizing acc with
  | nil => simpa using ha
  | cons x xs ih => exact ih (innerStep_isSome ha x)

theorem foldl_innerStep_isSome_of_cand {fLang : String} (fColor : Color)
    {used : List String} {r : List Entry} {s : Entry} (hs : s ∈ r)
    (h1 : s.1 ≠ fLang) (h2 : s.1 ∉ used) (acc : Option (Entry × Int)) :
    (r.foldl (innerStep fLang fColor used) acc).isSome := by
  induction r generalizing acc with
  | nil => simp at hs
  | cons x xs ih =>
    rcases List.mem_cons.mp hs with rfl | hs2
    · have hstep : (innerStep fLang fColor used acc s).isSome := by
        rcases acc with _ | ⟨b, bd⟩
        · rw [innerStep_cand_none h1 h2]
          rfl
        · exact innerStep_isSome (show (some (b, bd)).isSome = true from rfl) s
      exact foldl_innerStep_isSome xs hstep
    · exact ih hs2 _

theorem findShortest_isSome_of_cand {l : List Entry} {fLang : String} (fColor : Color)
    {used : List String} {s : Entry} (hs : s ∈ l) (h1 : s.1 ≠ fLang) (h2 : s.1 ∉ used) :
    (findShortest l fLang fColor used).isSome := by
  have h := foldl_innerStep_isSome_of_cand fColor hs h1 h2 none
  unfold findShortest
  rcases hfold : List.foldl (innerStep fLang fColor used) none l with _ | p
  · rw [hfold] at h
    simp at h
  · simp

theorem foldl_innerStep_mem {l : List Entry} {fLang : String} {fColor : Color}
    {used : List String} (r : List Entry) (acc : Option (Entry × Int))
    (hacc : ∀ p, acc = some p →
      p.1 ∈ l ∧ p.1.1 ≠ fLang ∧ p.1.1 ∉ used ∧ p.2 = sqDist fColor p.1.2)
    (hr : ∀ x ∈ r, x ∈ l) :
    ∀ p, r.foldl (innerStep fLang fColor used) acc = some p →
      p.1 ∈ l ∧ p.1.1 ≠ fLang ∧ p.1.1 ∉ used ∧ p.2 = sqDist fColor p.1.2 := by
  induction r generalizing acc with
  | nil => exact fun p hp => hacc p hp
  | cons x xs ih =>
    intro p hp
    refine ih (innerStep fLang fColor used acc x) ?_ (fun y hy => hr y (by simp [hy])) p hp
    intro q hq
    by_cases h1 : x.1 = fLang
    · rw [innerStep_skip_self h1] at hq
      exact hacc q hq
    by_cases h2 : x.1 ∈ used
    · rw [innerStep_skip_used h2] at hq
      exact hacc q hq
    rcases acc with _ | ⟨b, bd⟩
    · rw [innerStep_cand_none h1 h2] at hq
      obtain rfl := Option.some.inj hq
      exact ⟨hr x (by simp), h1, h2, rfl⟩
    · by_cases h3 : sqDist fColor x.2 < bd
      · rw [innerStep_cand_some_lt h1 h2 h3] at hq
        obtain rfl := Option.some.inj hq
        exact ⟨hr x (by simp), h1, h2, rfl⟩
      · rw [innerStep_cand_some_ge h1 h2 h3] at hq
        obtain rfl := Option.some.inj hq
        exact hacc (b, bd) rfl

theorem findShortest_mem {l : List Entry} {fLang : String} {fColor : Color}
    {used : List String} {s : Entry} (h : findShortest l fLang fColor used = some s) :
    s ∈ l ∧ s.1 ≠ fLang ∧ s.1 ∉ used := by
  unfold findShortest at h
  rcases hfold : List.foldl (innerStep fLang fColor used) none l with _ | p
  · rw [hfold] at h
    simp at h
  · rw [hfold] at h
    simp at h
    have hm := foldl_innerStep_mem (l := l) l none (by simp) (fun x hx => hx) p hfold
    rw [← h]
    exact ⟨hm.1, hm.2.1, hm.2.2.1⟩

end LanguageColors

/-! ## Minimality and tie-break of the inner search -/

namespace LanguageColors

theorem foldl_innerStep_min {fLang : String} {fColor : Color} {used : List String}
    (r : List Entry) (acc : Option (Entry × Int)) (s : Entry) (d : Int)
    (h : r.foldl (innerStep fLang fColor used) acc = some (s, d)) :
    (acc = some (s, d) ∧ ∀ x ∈ r, x.1 ≠ fLang → x.1 ∉ used → d ≤ sqDist fColor x.2) ∨
    (∃ r1 r2, r = r1 ++ s :: r2 ∧ s.1 ≠ fLang ∧ s.1 ∉ used ∧ d = sqDist fColor s.2 ∧
      (∀ x ∈ r1, x.1 ≠ fLang → x.1 ∉ used → d < sqDist fColor x.2) ∧
      (∀ p : Entry × Int, acc = some p → d < p.2) ∧
      (∀ x ∈ r2, x.1 ≠ fLang → x.1 ∉ used → d ≤ sqDist fColor x.2)) := by
  induction r generalizing acc with
  | nil =>
    left
    exact ⟨h, by simp⟩
  | cons x xs ih =>
    have hfold : xs.foldl (innerStep fLang fColor used)
        (innerStep fLang fColor used acc x) = some (s, d) := h
    rcases ih (innerStep fLang fColor used acc x) hfold with
      ⟨hacc1, hall⟩ | ⟨r1, r2, hr, hcand1, hcand2, hd, hearly, haccp, hlate⟩
    · by_cases h1 : x.1 = fLang
      · rw [innerStep_skip_self h1] at hacc1
        left
        refine ⟨hacc1, fun y hy hy1 hy2 => ?_⟩
        rcases List.mem_cons.mp hy with rfl | hy3
        · exact absurd h1 hy1
        · exact hall y hy3 hy1 hy2
      · by_cases h2 : x.1 ∈ used
        · rw [innerStep_skip_used h2] at hacc1
          left
          refine ⟨hacc1, fun y hy hy1 hy2 => ?_⟩
          rcases List.mem_cons.mp hy with rfl | hy3
          · exact absurd h2 hy2
          · exact hall y hy3 hy1 hy2
        · rcases acc with _ | ⟨b, bd⟩
          · rw [innerStep_cand_none h1 h2] at hacc1
            injection hacc1 with hpair
            injection hpair with he1 he2
            subst he1
            subst he2
            right
            exact ⟨[], xs, by simp, h1, h2, rfl, by simp, by simp, hall⟩
          · by_cases h3 : sqDist fColor x.2 < bd
            · rw [innerStep_cand_some_lt h1 h2 h3] at hacc1
              injection hacc1 with hpair
              injection hpair with he1 he2
              subst he1
              subst he2
              right
              refine ⟨[], xs, by simp, h1, h2, rfl, by simp, ?_, hall⟩
              intro p hp
              injection hp with hp2
              subst hp2
              exact h3
            · rw [innerStep_cand_some_ge h1 h2 h3] at hacc1
              injection hacc1 with hpair
              injection hpair with he1 he2
              subst he1
              subst he2
              left
              refine ⟨rfl, fun y hy hy1 hy2 => ?_⟩
              rcases List.mem_cons.mp hy with rfl | hy3
              · exact le_of_not_lt h3
              · exact hall y hy3 hy1 hy2
    · right
      refine ⟨x :: r1, r2, by rw [hr, List.cons_append], hcand1, hcand2, hd, ?_, ?_, hlate⟩
      · intro y hy hy1 hy2
        rcases List.mem_cons.mp hy with rfl | hy3
        · rcases acc with _ | ⟨b, bd⟩
          · have hx := haccp (y, sqDist fColor y.2) (by rw [innerStep_cand_none hy1 hy2])
            simpa using hx
          · by_cases h3 : sqDist fColor y.2 < bd
            · have hx := haccp (y, sqDist fColor y.2)
                (by rw [innerStep_cand_some_lt hy1 hy2 h3])
              simpa using hx
            · have hb := haccp (b, bd) (by rw [innerStep_cand_some_ge hy1 hy2 h3])
              have hle : bd ≤ sqDist fColor y.2 := le_of_not_lt h3
              calc d < bd := by simpa using hb
                _ ≤ sqDist fColor y.2 := hle
        · exact hearly y hy3 hy1 hy2
      · intro p hp
        rcases p with ⟨pe, pd⟩
        by_cases h1 : x.1 = fLang
        · exact haccp (pe, pd) (by rw [innerStep_skip_self h1, hp])
        · by_cases h2 : x.1 ∈ used
          · exact haccp (pe, pd) (by rw [innerStep_skip_used h2, hp])
          · by_cases h3 : sqDist fColor x.2 < pd
            · have hx := haccp (x, sqDist fColor x.2)
                (by rw [hp, innerStep_cand_some_lt h1 h2 h3])
              calc d < sqDist fColor x.2 := by simpa using hx
                _ < pd := h3
            · exact haccp (pe, pd) (by rw [hp, innerStep_cand_some_ge h1 h2 h3])

theorem findShortest_min {l : List Entry} {fLang : String} {fColor : Color}
    {used : List String} {s : Entry} (h : findShortest l fLang fColor used = some s) :
    ∃ l1 l2, l = l1 ++ s :: l2 ∧ s.1 ≠ fLang ∧ s.1 ∉ used ∧
      (∀ x ∈ l1, x.1 ≠ fLang → x.1 ∉ used → sqDist fColor s.2 < sqDist fColor x.2) ∧
      (∀ x ∈ l2, x.1 ≠ fLang → x.1 ∉ used → sqDist fColor s.2 ≤ sqDist fColor x.2) := by
  unfold findShortest at h
  rcases hfold : List.foldl (innerStep fLang fColor used) none l with _ | ⟨se, sd⟩
  · rw [hfold] at h
    simp at h
  · rw [hfold] at h
    simp at h
    subst h
    rcases foldl_innerStep_min l none se sd hfold with ⟨hc, _⟩ | hmin
    · simp at hc
    · obtain ⟨r1, r2, hr, h1, h2, hd, he, _, hl⟩ := hmin
      subst hd
      exact ⟨r1, r2, hr, h1, h2, he, hl⟩

end LanguageColors

/-! ## Lemmas about the outer loop's step -/

namespace LanguageColors

theorem outerStep_none_first {l : List Entry} {st : ChainState} {f : Entry}
    (hF : st.isFirst = true) (h : findShortest l f.1 f.2 st.used = none) :
    outerStep l st f = ⟨f.1 :: st.used, false, st.out ++ [f]⟩ := by
  simp [outerStep, h, hF]

theorem outerStep_some_first {l : List Entry} {st : ChainState} {f s : Entry}
    (hF : st.isFirst = true) (h : findShortest l f.1 f.2 st.used = some s) :
    outerStep l st f = ⟨s.1 :: f.1 :: st.used, false, (st.out ++ [f]) ++ [s]⟩ := by
  simp [outerStep, h, hF]

theorem outerStep_none_notFirst {l : List Entry} {st : ChainState} {f : Entry}
    (hF : st.isFirst = false) (h : findShortest l f.1 f.2 st.used = none) :
    outerStep l st f = ⟨st.used, false, st.out⟩ := by
  simp [outerStep, h, hF]

theorem outerStep_some_notFirst {l : List Entry} {st : ChainState} {f s : Entry}
    (hF : st.isFirst = false) (h : findShortest l f.1 f.2 st.used = some s) :
    outerStep l st f = ⟨s.1 :: st.used, false, st.out ++ [s]⟩ := by
  simp [outerStep, h, hF]

theorem outerStep_isFirst (l : List Entry) (st : ChainState) (f : Entry) :
    (outerStep l st f).isFirst = false := by
  rcases hF : st.isFirst <;> rcases h : findShortest l f.1 f.2 st.used with _ | s
  · rw [outerStep_none_notFirst hF h]
  · rw [outerStep_some_notFirst hF h]
  · rw [outerStep_none_first hF h]
  · rw [outerStep_some_first hF h]

theorem outerStep_out_first {l : List Entry} {st : ChainState} (f : Entry)
    (hF : st.isFirst = true) :
    (outerStep l st f).out = (st.out ++ [f]) ++ (findShortest l f.1 f.2 st.used).toList := by
  rcases h : findShortest l f.1 f.2 st.used with _ | s
  · rw [outerStep_none_first hF h]
    simp
  · rw [outerStep_some_first hF h]
    simp

theorem outerStep_out_notFirst {l : List Entry} {st : ChainState} (f : Entry)
    (hF : st.isFirst = false) :
    (outerStep l st f).out = st.out ++ (findShortest l f.1 f.2 st.used).toList := by
  rcases h : findShortest l f.1 f.2 st.used with _ | s
  · rw [outerStep_none_notFirst hF h]
    simp
  · rw [outerStep_some_notFirst hF h]
    simp

theorem outerStep_out_append (l : List Entry) (st : ChainState) (f : Entry) :
    ∃ add, (outerStep l st f).out = st.out ++ add := by
  rcases hF : st.isFirst
  · exact ⟨(findShortest l f.1 f.2 st.used).toList, outerStep_out_notFirst f hF⟩
  · exact ⟨[f] ++ (findShortest l f.1 f.2 st.used).toList, by
      rw [outerStep_out_first f hF, List.append_assoc]⟩

theorem foldl_outer_out_append (l : List Entry) (todo : List Entry) (st : ChainState) :
    ∃ add, (todo.foldl (outerStep l) st).out = st.out ++ add := by
  induction todo generalizing st with
  | nil => exact ⟨[], by simp⟩
  | cons f t ih =>
    obtain ⟨a1, h1⟩ := outerStep_out_append l st f
    obtain ⟨a2, h2⟩ := ih (outerStep l st f)
    exact ⟨a1 ++ a2, by rw [List.foldl_cons, h2, h1, List.append_assoc]⟩

theorem outerStep_used_sub (l : List Entry) (st : ChainState) (f : Entry) :
    st.used ⊆ (outerStep l st f).used := by
  intro x hx
  rcases hF : st.isFirst <;> rcases h : findShortest l f.1 f.2 st.used with _ | s
  · rw [outerStep_none_notFirst hF h]
    exact hx
  · rw [outerStep_some_notFirst hF h]
    exact List.mem_cons_of_mem _ hx
  · rw [outerStep_none_first hF h]
    exact List.mem_cons_of_mem _ hx
  · rw [outerStep_some_first hF h]
    exact List.mem_cons_of_mem _ (List.mem_cons_of_mem _ hx)

theorem foldl_outer_used_sub (l : List Entry) (todo : List Entry) (st : ChainState) :
    st.used ⊆ (todo.foldl (outerStep l) st).used := by
  induction todo generalizing st with
  | nil => exact fun x hx => hx
  | cons f t ih =>
    intro x hx
    exact ih (outerStep l st f) (outerStep_used_sub l st f hx)

end LanguageColors

/-! ## The loop invariant and counting bounds -/

namespace LanguageColors

theorem chainInv_step {l : List Entry} {st : ChainState} (f : Entry)
    (hF : st.isFirst = false) (h : ChainInv l st) : ChainInv l (outerStep l st f) := by
  obtain ⟨hsync, hnodup, hmem⟩ := h
  rcases hs : findShortest l f.1 f.2 st.used with _ | s
  · rw [outerStep_none_notFirst hF hs]
    exact ⟨hsync, hnodup, hmem⟩
  · obtain ⟨hsl, hsne, hsnu⟩ := findShortest_mem hs
    rw [outerStep_some_notFirst hF hs]
    have hs1 : s.1 ∉ List.map Prod.fst st.out := fun hc => hsnu ((hsync s.1).mpr hc)
    refine ⟨?_, ?_, ?_⟩
    · intro x
      have := hsync x
      simp only [ChainState.used, ChainState.out, List.mem_cons, List.map_append,
        List.mem_append, List.map_cons, List.map_nil, List.mem_singleton]
      tauto
    · simp only [ChainState.out, List.map_append, List.map_cons, List.map_nil]
      rw [List.nodup_append]
      exact ⟨hnodup, List.nodup_singleton s.1, by
        intro a ha hb
        simp at hb
        subst hb
        exact hs1 ha⟩
    · intro p hp
      simp only [ChainState.out, List.mem_append, List.mem_singleton] at hp
      rcases hp with hp | rfl
      · exact hmem p hp
      · exact hsl

theorem chainInv_foldl {l : List Entry} (todo : List Entry) {st : ChainState}
    (hF : st.isFirst = false) (h : ChainInv l st) :
    ChainInv l (todo.foldl (outerStep l) st) := by
  induction todo generalizing st with
  | nil => exact h
  | cons f t ih => exact ih (outerStep_isFirst l st f) (chainInv_step f hF h)

theorem eq_of_mem_of_nodup_keys {l : List Entry} (hn : (l.map Prod.fst).Nodup)
    {p q : Entry} (hp : p ∈ l) (hq : q ∈ l) (hpq : p.1 = q.1) : p = q := by
  induction l with
  | nil => simp at hp
  | cons a t ih =>
    rw [List.map_cons, List.nodup_cons] at hn
    rcases List.mem_cons.mp hp with rfl | hp2 <;> rcases List.mem_cons.mp hq with rfl | hq2
    · rfl
    · have : p.1 ∈ List.map Prod.fst t := hpq ▸ List.mem_map_of_mem Prod.fst hq2
      exact absurd this hn.1
    · have : q.1 ∈ List.map Prod.fst t := hpq ▸ List.mem_map_of_mem Prod.fst hp2
      exact absurd this hn.1
    · exact ih hn.2 hp2 hq2

theorem countP_ne_of_nodup_keys {t : List Entry} {m : String}
    (hd : (t.map Prod.fst).Nodup) (hm : m ∈ t.map Prod.fst) :
    t.countP (fun e => e.1 != m) + 1 = t.length := by
  induction t with
  | nil => simp at hm
  | cons a r ih =>
    rw [List.map_cons, List.nodup_cons] at hd
    rw [List.countP_cons]
    rcases List.mem_cons.mp hm with heq | hm2
    · have hall : ∀ e ∈ r, (fun e : Entry => e.1 != m) e = true := by
        intro e he
        have hmem : e.1 ∈ List.map Prod.fst r := List.mem_map_of_mem Prod.fst he
        have hne : e.1 ≠ m := fun hc => hd.1 (heq ▸ hc ▸ hmem)
        simpa using hne
      rw [List.countP_eq_length.mpr hall]
      have : (a.1 != m) = false := by simp [heq]
      simp [this]
    · have hane : (a.1 != m) = true := by
        have : a.1 ≠ m := fun hc => hd.1 (hc ▸ hm2)
        simpa using this
      have := ih hd.2 hm2
      simp [hane]
      omega

theorem foldl_out_lower {l : List Entry} {m : String} (todo : List Entry)
    (st : ChainState) (hF : st.isFirst = false) (hm : m ∈ l.map Prod.fst)
    (hnot : m ∉ (todo.foldl (outerStep l) st).used) :
    st.out.length + todo.countP (fun e => e.1 != m) ≤
      (todo.foldl (outerStep l) st).out.length := by
  induction todo generalizing st with
  | nil => simp
  | cons f t ih =>
    rw [List.foldl_cons] at hnot ⊢
    have hF1 : (outerStep l st f).isFirst = false := outerStep_isFirst l st f
    have hmst1 : m ∉ (outerStep l st f).used := fun hc =>
      hnot (foldl_outer_used_sub l t (outerStep l st f) hc)
    have hmst : m ∉ st.used := fun hc => hmst1 (outerStep_used_sub l st f hc)
    have h1 := ih (outerStep l st f) hF1 hnot
    by_cases hfm : f.1 = m
    · have hcount : (f :: t).countP (fun e => e.1 != m) =
          t.countP (fun e => e.1 != m) := by
        rw [List.countP_cons]
        simp [hfm]
      obtain ⟨add, ha⟩ := outerStep_out_append l st f
      rw [hcount]
      rw [ha] at h1
      simp at h1
      omega
    · obtain ⟨e, hel, hem⟩ := List.mem_map.mp hm
      have hcand1 : e.1 ≠ f.1 := by
        rw [hem]
        exact fun hc => hfm hc.symm
      have hcand2 : e.1 ∉ st.used := by
        rw [hem]
        exact hmst
      have hsome := findShortest_isSome_of_cand f.2 hel hcand1 hcand2
      rcases hfs : findShortest l f.1 f.2 st.used with _ | s
      · rw [hfs] at hsome
        simp at hsome
      · have hout : (outerStep l st f).out = st.out ++ [s] := by
          rw [outerStep_some_notFirst hF hfs]
        have hcount : (f :: t).countP (fun e => e.1 != m) =
            t.countP (fun e => e.1 != m) + 1 := by
          rw [List.countP_cons]
          simp [hfm]
        rw [hcount]
        rw [hout] at h1
        simp at h1
        omega

end LanguageColors

/-! ## The master theorem about the built chain -/

namespace LanguageColors

theorem keys_nodup_of_sorted {l : List Entry}
    (hs : l.Pairwise (fun a b => a.1 < b.1)) : (l.map Prod.fst).Nodup :=
  List.Pairwise.map Prod.fst (fun _ _ h => ne_of_lt h) hs

theorem buildChain_cons_head (f : Entry) (t : List Entry) :
    ∃ rest, buildChain (f :: t) = f :: rest := by
  have hbc : buildChain (f :: t) =
      (t.foldl (outerStep (f :: t)) (outerStep (f :: t) ⟨[], true, []⟩ f)).out := rfl
  obtain ⟨add, ha⟩ :=
    foldl_outer_out_append (f :: t) t (outerStep (f :: t) ⟨[], true, []⟩ f)
  rcases hfs : findShortest (f :: t) f.1 f.2 [] with _ | s
  · rw [outerStep_none_first rfl hfs] at ha
    refine ⟨add, ?_⟩
    rw [hbc, outerStep_none_first rfl hfs, ha]
    rfl
  · rw [outerStep_some_first rfl hfs] at ha
    refine ⟨s :: add, ?_⟩
    rw [hbc, outerStep_some_first rfl hfs, ha]
    rfl

theorem buildChain_spec (l : List Entry) (hk : (l.map Prod.fst).Nodup) :
    (buildChain l).length = l.length ∧ ((buildChain l).map Prod.fst).Nodup ∧
      ∀ p ∈ buildChain l, p ∈ l := by
  cases l with
  | nil => exact ⟨rfl, List.nodup_nil, by simp [buildChain]⟩
  | cons f t =>
    set st1 := outerStep (f :: t) ⟨[], true, []⟩ f with hst1
    set F := t.foldl (outerStep (f :: t)) st1 with hFdef
    have hbc : buildChain (f :: t) = F.out := by
      rw [hFdef, hst1, buildChain, List.foldl_cons]
    have hF1 : st1.isFirst = false := outerStep_isFirst _ _ _
    have hfu : f.1 ∈ st1.used := by
      rcases hfs : findShortest (f :: t) f.1 f.2 [] with _ | s
      · rw [hst1, outerStep_none_first rfl hfs]
        simp
      · rw [hst1, outerStep_some_first rfl hfs]
        simp
    have hinv1 : ChainInv (f :: t) st1 := by
      rcases hfs : findShortest (f :: t) f.1 f.2 [] with _ | s
      · rw [hst1, outerStep_none_first rfl hfs]
        refine ⟨?_, ?_, ?_⟩
        · intro x
          simp
        · simp
        · intro p hp
          simp at hp
          simp [hp]
      · obtain ⟨hsl, hsne, _⟩ := findShortest_mem hfs
        rw [hst1, outerStep_some_first rfl hfs]
        refine ⟨?_, ?_, ?_⟩
        · intro x
          simp
          tauto
        · simp [Ne.symm hsne]
        · intro p hp
          simp at hp
          rcases hp with rfl | rfl
          · simp
          · exact hsl
    have hinvF : ChainInv (f :: t) F := chainInv_foldl t hF1 hinv1
    have hsubkeys : F.out.map Prod.fst ⊆ (f :: t).map Prod.fst := by
      intro x hx
      obtain ⟨p, hp, rfl⟩ := List.mem_map.mp hx
      exact List.mem_map_of_mem Prod.fst (hinvF.2.2 p hp)
    have hub : F.out.length ≤ (f :: t).length := by
      have := (List.subperm_of_subset hinvF.2.1 hsubkeys).length_le
      simpa using this
    have hcomp : ∀ m ∈ (f :: t).map Prod.fst, m ∈ F.used := by
      intro m hm
      by_contra hnot
      have hmf : m ≠ f.1 := by
        intro hc
        exact hnot (foldl_outer_used_sub (f :: t) t st1 (hc ▸ hfu))
      obtain ⟨e, hel, hem⟩ := List.mem_map.mp hm
      have hfsome := findShortest_isSome_of_cand f.2 hel
        (by rw [hem]; exact hmf) (List.not_mem_nil e.1)
      rcases hfs : findShortest (f :: t) f.1 f.2 [] with _ | s
      · rw [hfs] at hfsome
        simp at hfsome
      · have hlen1 : st1.out.length = 2 := by
          rw [hst1, outerStep_some_first rfl hfs]
          rfl
        have hlow := foldl_out_lower t st1 hF1 hm hnot
        rw [← hFdef] at hlow
        have hmt : m ∈ t.map Prod.fst := by
          rw [List.map_cons] at hm
          rcases List.mem_cons.mp hm with hc | hc
          · exact absurd hc hmf
          · exact hc
        have htk : (t.map Prod.fst).Nodup := (List.nodup_cons.mp (by simpa using hk)).2
        have hcnt := countP_ne_of_nodup_keys htk hmt
        have hmout : m ∉ F.out.map Prod.fst := fun hc => hnot ((hinvF.1 m).mpr hc)
        have hub2 : F.out.length + 1 ≤ (f :: t).length := by
          have hsub2 : (F.out.map Prod.fst ++ [m]) ⊆ (f :: t).map Prod.fst := by
            intro x hx
            rcases List.mem_append.mp hx with hx | hx
            · exact hsubkeys hx
            · simp at hx
              subst hx
              exact hm
          have hnd2 : (F.out.map Prod.fst ++ [m]).Nodup := by
            rw [List.nodup_append]
            refine ⟨hinvF.2.1, List.nodup_singleton m, ?_⟩
            intro a ha hb
            simp at hb
            subst hb
            exact hmout ha
          have := (List.subperm_of_subset hnd2 hsub2).length_le
          simpa using this
        have hl2 : (f :: t).length = t.length + 1 := by simp
        omega
    have hlb : (f :: t).length ≤ F.out.length := by
      have hsub3 : (f :: t).map Prod.fst ⊆ F.out.map Prod.fst := by
        intro m hm
        exact (hinvF.1 m).mp (hcomp m hm)
      have := (List.subperm_of_subset hk hsub3).length_le
      simpa using this
    refine ⟨?_, ?_, ?_⟩
    · rw [hbc]
      omega
    · rw [hbc]
      exact hinvF.2.1
    · rw [hbc]
      exact hinvF.2.2

end LanguageColors

/-! ## The Euclidean distance as a metric -/

namespace LanguageColors

theorem sqDist_nonneg (a b : Color) : 0 ≤ sqDist a b :=
  add_nonneg (add_nonneg (mul_self_nonneg _) (mul_self_nonneg _)) (mul_self_nonneg _)

theorem euclidean_eq_dist (a b : Color) :
    Color.euclidean_distance a b = dist (toE3 a) (toE3 b) := by
  rw [Color.euclidean_distance, EuclideanSpace.dist_eq]
  congr 1
  rw [Fin.sum_univ_three]
  simp only [toE3, Matrix.cons_val_zero, Matrix.cons_val_one, Matrix.head_cons,
    Matrix.cons_val_two, Matrix.tail_cons, Real.dist_eq]
  rw [sq_abs, sq_abs, sq_abs]
  push_cast [sqDist]
  ring

theorem toE3_inj {a b : Color} (h : toE3 a = toE3 b) : a = b := by
  have h0 := congrFun h 0
  have h1 := congrFun h 1
  have h2 := congrFun h 2
  simp only [toE3, Matrix.cons_val_zero, Matrix.cons_val_one, Matrix.head_cons,
    Matrix.cons_val_two, Matrix.tail_cons] at h0 h1 h2
  cases a
  cases b
  simp only [Color.mk.injEq]
  exact ⟨by exact_mod_cast h0, by exact_mod_cast h1, by exact_mod_cast h2⟩

theorem euclidean_lt_iff_sqDist_lt (f a b : Color) :
    Color.euclidean_distance f a < Color.euclidean_distance f b ↔
      sqDist f a < sqDist f b := by
  rw [Color.euclidean_distance, Color.euclidean_distance,
    Real.sqrt_lt_sqrt_iff (by exact_mod_cast sqDist_nonneg f a)]
  exact_mod_cast Iff.rfl

theorem euclidean_le_iff_sqDist_le (f a b : Color) :
    Color.euclidean_distance f a ≤ Color.euclidean_distance f b ↔
      sqDist f a ≤ sqDist f b := by
  constructor
  · intro h
    by_contra hc
    rw [not_le] at hc
    exact absurd ((euclidean_lt_iff_sqDist_lt f b a).mpr hc) (not_lt.mpr h)
  · intro h
    rw [Color.euclidean_distance, Color.euclidean_distance]
    apply Real.sqrt_le_sqrt
    exact_mod_cast h

end LanguageColors

/-! ## Claims -/

namespace LanguageColors

/-- The concrete three-color set used by several witnesses is listed in
strictly increasing name order. -/
theorem demo_sorted :
    ([("A", Color.mk 0 0 0), ("B", Color.mk 1 1 1), ("C", Color.mk 255 255 255)] :
      List Entry).Pairwise (fun a b => a.1 < b.1) := by
  have hAB : ("A" : String) < "B" := by
    rw [String.lt_iff_toList_lt]
    decide
  have hAC : ("A" : String) < "C" := by
    rw [String.lt_iff_toList_lt]
    decide
  have hBC : ("B" : String) < "C" := by
    rw [String.lt_iff_toList_lt]
    decide
  refine List.Pairwise.cons ?_ (List.Pairwise.cons ?_ (List.Pairwise.cons ?_ List.Pairwise.nil))
  · intro p hp
    rcases List.mem_cons.mp hp with rfl | hp
    · exact hAB
    · rcases List.mem_cons.mp hp with rfl | hp
      · exact hAC
      · simp at hp
  · intro p hp
    rcases List.mem_cons.mp hp with rfl | hp
    · exact hBC
    · simp at hp
  · intro p hp
    simp at hp

/-- C1: chain construction follows the first-iteration quirk.  Starting
from the initial state, the first outer iteration appends the anchor `f`
itself (marking it used) before also appending the nearest unused
candidate when one was found; a later iteration (any state with
`isFirst = false`) appends exactly the found nearest candidate and marks
it used, never `f` itself. -/
theorem chain_first_iteration_quirk (l : List Entry) (f : Entry) (t : List Entry) :
    buildChain (f :: t) =
      (t.foldl (outerStep (f :: t)) (outerStep (f :: t) ⟨[], true, []⟩ f)).out ∧
    (outerStep l ⟨[], true, []⟩ f).out = f :: (findShortest l f.1 f.2 []).toList ∧
    f.1 ∈ (outerStep l ⟨[], true, []⟩ f).used ∧
    ∀ (used : List String) (out : List Entry) (f2 : Entry),
      (outerStep l ⟨used, false, out⟩ f2).out =
        out ++ (findShortest l f2.1 f2.2 used).toList ∧
      ∀ s, findShortest l f2.1 f2.2 used = some s →
        s.1 ≠ f2.1 ∧ s.1 ∈ (outerStep l ⟨used, false, out⟩ f2).used := by
  refine ⟨rfl, ?_, ?_, ?_⟩
  · rw [outerStep_out_first f rfl]
    simp
  · rcases hfs : findShortest l f.1 f.2 [] with _ | s
    · rw [outerStep_none_first rfl hfs]
      simp
    · rw [outerStep_some_first rfl hfs]
      simp
  · intro used out f2
    constructor
    · exact outerStep_out_notFirst f2 rfl
    · intro s hs
      obtain ⟨_, hne, _⟩ := findShortest_mem hs
      refine ⟨hne, ?_⟩
      rw [outerStep_some_notFirst rfl hs]
      simp

/-- Witness for C1 at the concrete three-color set: on a later iteration
from "B", the appended nearest candidate is "C", which is not "B" and is
marked used. -/
theorem chain_first_iteration_quirk_witness :
    ("C" : String) ≠ "B" ∧
      "C" ∈ (outerStep
        [("A", Color.mk 0 0 0), ("B", Color.mk 1 1 1), ("C", Color.mk 255 255 255)]
        ⟨["A"], false, [("A", Color.mk 0 0 0)]⟩ ("B", Color.mk 1 1 1)).used := by
  have h := (chain_first_iteration_quirk
    [("A", Color.mk 0 0 0), ("B", Color.mk 1 1 1), ("C", Color.mk 255 255 255)]
    ("A", Color.mk 0 0 0)
    [("B", Color.mk 1 1 1), ("C", Color.mk 255 255 255)]).2.2.2
    ["A"] [("A", Color.mk 0 0 0)] ("B", Color.mk 1 1 1)
  exact h.2 ("C", Color.mk 255 255 255) (by decide)

/-- C2: for a ColorSet of size `n` listed in name-ascending order, the
Chain has length `n`, its names are pairwise distinct and all come from
the input, the length lies in `[min 1 n, n]`, and the empty ColorSet gives
the empty Chain. -/
theorem chain_length_and_names (l : List Entry)
    (hs : l.Pairwise (fun a b => a.1 < b.1)) :
    (buildChain l).length = l.length ∧
      ((buildChain l).map Prod.fst).Nodup ∧
      (∀ p ∈ buildChain l, p.1 ∈ l.map Prod.fst) ∧
      min 1 l.length ≤ (buildChain l).length ∧
      (buildChain l).length ≤ l.length ∧
      (l = [] → buildChain l = []) := by
  obtain ⟨h1, h2, h3⟩ := buildChain_spec l (keys_nodup_of_sorted hs)
  refine ⟨h1, h2, ?_, ?_, ?_, ?_⟩
  · exact fun p hp => List.mem_map_of_mem Prod.fst (h3 p hp)
  · omega
  · omega
  · intro hl
    subst hl
    rfl

/-- Witness for C2 at the concrete three-color set. -/
theorem chain_length_and_names_witness :
    (buildChain
        [("A", Color.mk 0 0 0), ("B", Color.mk 1 1 1), ("C", Color.mk 255 255 255)]).length =
      ([("A", Color.mk 0 0 0), ("B", Color.mk 1 1 1),
        ("C", Color.mk 255 255 255)] : List Entry).length :=
  (chain_length_and_names
    [("A", Color.mk 0 0 0), ("B", Color.mk 1 1 1), ("C", Color.mk 255 255 255)]
    demo_sorted).1

/-- C3: for a non-empty ColorSet in name-ascending order, the first Chain
entry is the entry whose name sorts first among all input names. -/
theorem chain_first_anchor (l : List Entry) (f : Entry) (t : List Entry)
    (hl : l = f :: t) (hs : l.Pairwise (fun a b => a.1 < b.1)) :
    (buildChain l).head? = some f ∧ ∀ p ∈ l, f.1 ≤ p.1 := by
  subst hl
  obtain ⟨rest, hr⟩ := buildChain_cons_head f t
  constructor
  · rw [hr]
    rfl
  · intro p hp
    rcases List.mem_cons.mp hp with rfl | hp2
    · exact le_refl _
    · exact le_of_lt ((List.pairwise_cons.mp hs).1 p hp2)

/-- Witness for C3 at the concrete three-color set. -/
theorem chain_first_anchor_witness :
    (buildChain
      [("A", Color.mk 0 0 0), ("B", Color.mk 1 1 1),
        ("C", Color.mk 255 255 255)]).head? = some ("A", Color.mk 0 0 0) :=
  (chain_first_anchor
    [("A", Color.mk 0 0 0), ("B", Color.mk 1 1 1), ("C", Color.mk 255 255 255)]
    ("A", Color.mk 0 0 0) [("B", Color.mk 1 1 1), ("C", Color.mk 255 255 255)]
    rfl demo_sorted).1

/-- C4: first-seen-wins tie-break.  Whenever the nearest-neighbor search
returns `s`, the list splits as `l1 ++ s :: l2` where every unused
candidate before `s` is strictly farther from the reference color and
every unused candidate after `s` is at least as far: among equidistant
minimal candidates the earliest in iteration order is selected, because
the running best is only replaced on a strictly smaller distance. -/
theorem nearest_tiebreak_first_seen (l : List Entry) (fLang : String) (fColor : Color)
    (used : List String) (s : Entry)
    (h : findShortest l fLang fColor used = some s) :
    ∃ l1 l2, l = l1 ++ s :: l2 ∧ s.1 ≠ fLang ∧ s.1 ∉ used ∧
      (∀ x ∈ l1, x.1 ≠ fLang → x.1 ∉ used →
        Color.euclidean_distance fColor s.2 < Color.euclidean_distance fColor x.2) ∧
      (∀ x ∈ l2, x.1 ≠ fLang → x.1 ∉ used →
        Color.euclidean_distance fColor s.2 ≤ Color.euclidean_distance fColor x.2) := by
  obtain ⟨l1, l2, hsplit, h1, h2, he, hl⟩ := findShortest_min h
  refine ⟨l1, l2, hsplit, h1, h2, ?_, ?_⟩
  · intro x hx hx1 hx2
    exact (euclidean_lt_iff_sqDist_lt fColor s.2 x.2).mpr (he x hx hx1 hx2)
  · intro x hx hx1 hx2
    exact (euclidean_le_iff_sqDist_le fColor s.2 x.2).mpr (hl x hx hx1 hx2)

/-- Witness for C4 on a constructed 3-entry set with two candidates
equidistant from "A": the first-seen candidate "B" is returned. -/
theorem nearest_tiebreak_first_seen_witness :
    ∃ l1 l2,
      ([("A", Color.mk 0 0 0), ("B", Color.mk 1 0 0), ("C", Color.mk 0 1 0)] :
          List Entry) = l1 ++ ("B", Color.mk 1 0 0) :: l2 ∧
      ("B" : String) ≠ "A" ∧ ("B" : String) ∉ ([] : List String) ∧
      (∀ x ∈ l1, x.1 ≠ "A" → x.1 ∉ ([] : List String) →
        Color.euclidean_distance (Color.mk 0 0 0) (Color.mk 1 0 0) <
          Color.euclidean_distance (Color.mk 0 0 0) x.2) ∧
      (∀ x ∈ l2, x.1 ≠ "A" → x.1 ∉ ([] : List String) →
        Color.euclidean_distance (Color.mk 0 0 0) (Color.mk 1 0 0) ≤
          Color.euclidean_distance (Color.mk 0 0 0) x.2) :=
  nearest_tiebreak_first_seen
    [("A", Color.mk 0 0 0), ("B", Color.mk 1 0 0), ("C", Color.mk 0 1 0)]
    "A" (Color.mk 0 0 0) [] ("B", Color.mk 1 0 0) (by decide)

/-- C5: the concrete scenario.  Parsing the three web colors gives the
stated channels; the first iteration finds "B" as nearest to "A", the
second finds "C" from "B", the third finds nothing; the Chain is exactly
the input list, of length 3. -/
theorem chain_concrete_scenario :
    Color.from_webcolor ("#000000") = some (Color.mk 0 0 0) ∧
    Color.from_webcolor ("#010101") = some (Color.mk 1 1 1) ∧
    Color.from_webcolor ("#FFFFFF") = some (Color.mk 255 255 255) ∧
    findShortest
      [("A", Color.mk 0 0 0), ("B", Color.mk 1 1 1), ("C", Color.mk 255 255 255)]
      "A" (Color.mk 0 0 0) [] = some ("B", Color.mk 1 1 1) ∧
    findShortest
      [("A", Color.mk 0 0 0), ("B", Color.mk 1 1 1), ("C", Color.mk 255 255 255)]
      "B" (Color.mk 1 1 1) ["B", "A"] = some ("C", Color.mk 255 255 255) ∧
    findShortest
      [("A", Color.mk 0 0 0), ("B", Color.mk 1 1 1), ("C", Color.mk 255 255 255)]
      "C" (Color.mk 255 255 255) ["C", "B", "A"] = none ∧
    buildChain
      [("A", Color.mk 0 0 0), ("B", Color.mk 1 1 1), ("C", Color.mk 255 255 255)] =
      [("A", Color.mk 0 0 0), ("B", Color.mk 1 1 1), ("C", Color.mk 255 255 255)] ∧
    (buildChain
      [("A", Color.mk 0 0 0), ("B", Color.mk 1 1 1),
        ("C", Color.mk 255 255 255)]).length = 3 := by
  decide

end LanguageColors

namespace LanguageColors

/-- Counterexample to C6 as stated: at the input "#12345" the parse
succeeds (it is not `none`) although the string after stripping the
optional leading `#` is not exactly 6 hex characters, so failure is not
equivalent to "not six hex digits". -/
theorem parse_sixhex_iff_false :
    ¬ ((Color.from_webcolor ("#12345") = none) ↔
        ¬ specSixHexAfterStrip ("#12345")) := by
  decide

/-- C6 (amended): `from_webcolor` fails exactly when, after stripping
every leading `#`, fewer than five characters remain or one of the first
three 2-character groups is not an optionally signed nonempty run of hex
digits; in particular "#12G456" and "#123" fail, and every string that is
exactly 6 hex digits after the optional leading `#` succeeds — but
success is not limited to such strings. -/
theorem parse_failure_characterization :
    (∀ s : String, (Color.from_webcolor s).isSome ↔ codeOk s) ∧
    Color.from_webcolor ("#12G456") = none ∧
    Color.from_webcolor ("#123") = none ∧
    (∀ s : String, specSixHexAfterStrip s → (Color.from_webcolor s).isSome) := by
  refine ⟨?_, by decide, by decide, ?_⟩
  · intro s
    show (from_webcolorChars (s.data.dropWhile (· == '#'))).isSome ↔ codeOk s
    unfold codeOk
    exact from_webcolorChars_isSome_iff _
  · intro s hs6
    obtain ⟨h6, hhex⟩ := hs6
    show (from_webcolorChars (s.data.dropWhile (· == '#'))).isSome
    rw [dropWhile_eq_stripOptHash h6 hhex, from_webcolorChars_isSome_iff]
    refine ⟨by omega, ?_, ?_, ?_⟩
    · apply chunkOk_of_hex
      · have hlt : ((stripOptHash s.data).take 2).length = 2 := by
          rw [List.length_take, h6]
          omega
        intro hc
        rw [hc] at hlt
        simp at hlt
      · exact fun c hc => hhex c (List.take_subset 2 _ hc)
    · apply chunkOk_of_hex
      · have hlt : (((stripOptHash s.data).drop 2).take 2).length = 2 := by
          rw [List.length_take, List.length_drop, h6]
          omega
        intro hc
        rw [hc] at hlt
        simp at hlt
      · exact fun c hc => hhex c (List.drop_subset 2 _ (List.take_subset 2 _ hc))
    · apply chunkOk_of_hex
      · have hlt : (((stripOptHash s.data).drop 4).take 2).length = 2 := by
          rw [List.length_take, List.length_drop, h6]
          omega
        intro hc
        rw [hc] at hlt
        simp at hlt
      · exact fun c hc => hhex c (List.drop_subset 4 _ (List.take_subset 2 _ hc))

/-- Witness for C6 (amended): the six-hex string "A1B2C3" parses
successfully. -/
theorem parse_failure_characterization_witness :
    (Color.from_webcolor ("A1B2C3")).isSome :=
  parse_failure_characterization.2.2.2 ("A1B2C3") (by decide)

/-- C7: hex round-trip.  For any six hex digits, parsing (with or without
a leading `#`) succeeds with the same color, formatting that color gives
`#` followed by the six digits uppercased, and re-parsing the formatted
string gives the color back. -/
theorem hex_roundtrip (c1 c2 c3 c4 c5 c6 : Char)
    (h : ∀ c ∈ [c1, c2, c3, c4, c5, c6], isHexDigitChar c) :
    ∃ col : Color,
      Color.from_webcolor (String.mk ('#' :: [c1, c2, c3, c4, c5, c6])) = some col ∧
      Color.from_webcolor (String.mk [c1, c2, c3, c4, c5, c6]) = some col ∧
      Color.as_webcolor col =
        String.mk ('#' :: List.map upperHexChar [c1, c2, c3, c4, c5, c6]) ∧
      Color.from_webcolor (Color.as_webcolor col) = some col := by
  have hx1 : isHexDigitChar c1 := h c1 (by simp)
  have hx2 : isHexDigitChar c2 := h c2 (by simp)
  have hx3 : isHexDigitChar c3 := h c3 (by simp)
  have hx4 : isHexDigitChar c4 := h c4 (by simp)
  have hx5 : isHexDigitChar c5 := h c5 (by simp)
  have hx6 : isHexDigitChar c6 := h c6 (by simp)
  obtain ⟨v1, hv1⟩ := Option.isSome_iff_exists.mp ((hexVal?_isSome_iff c1).mpr hx1)
  obtain ⟨v2, hv2⟩ := Option.isSome_iff_exists.mp ((hexVal?_isSome_iff c2).mpr hx2)
  obtain ⟨v3, hv3⟩ := Option.isSome_iff_exists.mp ((hexVal?_isSome_iff c3).mpr hx3)
  obtain ⟨v4, hv4⟩ := Option.isSome_iff_exists.mp ((hexVal?_isSome_iff c4).mpr hx4)
  obtain ⟨v5, hv5⟩ := Option.isSome_iff_exists.mp ((hexVal?_isSome_iff c5).mpr hx5)
  obtain ⟨v6, hv6⟩ := Option.isSome_iff_exists.mp ((hexVal?_isSome_iff c6).mpr hx6)
  have hl1 := hexVal?_lt16 hv1
  have hl2 := hexVal?_lt16 hv2
  have hl3 := hexVal?_lt16 hv3
  have hl4 := hexVal?_lt16 hv4
  have hl5 := hexVal?_lt16 hv5
  have hl6 := hexVal?_lt16 hv6
  have hb1 : (0 : Int) ≤ Int.ofNat (16 * v1 + v2) := by
    simp only [Int.ofNat_eq_natCast]
    omega
  have hu1 : Int.ofNat (16 * v1 + v2) < (256 : Int) := by
    simp only [Int.ofNat_eq_natCast]
    omega
  have hb2 : (0 : Int) ≤ Int.ofNat (16 * v3 + v4) := by
    simp only [Int.ofNat_eq_natCast]
    omega
  have hu2 : Int.ofNat (16 * v3 + v4) < (256 : Int) := by
    simp only [Int.ofNat_eq_natCast]
    omega
  have hb3 : (0 : Int) ≤ Int.ofNat (16 * v5 + v6) := by
    simp only [Int.ofNat_eq_natCast]
    omega
  have hu3 : Int.ofNat (16 * v5 + v6) < (256 : Int) := by
    simp only [Int.ofNat_eq_natCast]
    omega
  have d1 : (16 * v1 + v2) / 16 = v1 := by omega
  have m1 : (16 * v1 + v2) % 16 = v2 := by omega
  have d2 : (16 * v3 + v4) / 16 = v3 := by omega
  have m2 : (16 * v3 + v4) % 16 = v4 := by omega
  have d3 : (16 * v5 + v6) / 16 = v5 := by omega
  have m3 : (16 * v5 + v6) % 16 = v6 := by omega
  have hdata : (Color.as_webcolor
      ⟨Int.ofNat (16 * v1 + v2), Int.ofNat (16 * v3 + v4), Int.ofNat (16 * v5 + v6)⟩).data =
      ['#', hexDigitChar v1, hexDigitChar v2, hexDigitChar v3, hexDigitChar v4,
        hexDigitChar v5, hexDigitChar v6] := by
    have hd := as_webcolor_data_of_bytes
      ⟨Int.ofNat (16 * v1 + v2), Int.ofNat (16 * v3 + v4), Int.ofNat (16 * v5 + v6)⟩
      hb1 hu1 hb2 hu2 hb3 hu3
    have ht1 : (Int.ofNat (16 * v1 + v2)).toNat = 16 * v1 + v2 := rfl
    have ht2 : (Int.ofNat (16 * v3 + v4)).toNat = 16 * v3 + v4 := rfl
    have ht3 : (Int.ofNat (16 * v5 + v6)).toNat = 16 * v5 + v6 := rfl
    rw [ht1, ht2, ht3, d1, m1, d2, m2, d3, m3] at hd
    exact hd
  have hdataU := hdata
  rw [hexVal?_upperHexChar hv1, hexVal?_upperHexChar hv2, hexVal?_upperHexChar hv3,
    hexVal?_upperHexChar hv4, hexVal?_upperHexChar hv5, hexVal?_upperHexChar hv6] at hdataU
  refine ⟨⟨Int.ofNat (16 * v1 + v2), Int.ofNat (16 * v3 + v4), Int.ofNat (16 * v5 + v6)⟩,
    ?_, ?_, ?_, ?_⟩
  · show from_webcolorChars (('#' :: [c1, c2, c3, c4, c5, c6]).dropWhile (· == '#')) = _
    rw [dropWhile_hash_cons (isHexDigitChar_ne_hash hx1)]
    exact from_webcolorChars_six hv1 hv2 hv3 hv4 hv5 hv6
  · show from_webcolorChars ([c1, c2, c3, c4, c5, c6].dropWhile (· == '#')) = _
    rw [dropWhile_no_hash (isHexDigitChar_ne_hash hx1)]
    exact from_webcolorChars_six hv1 hv2 hv3 hv4 hv5 hv6
  · calc Color.as_webcolor _ = String.mk ((Color.as_webcolor _).data) := rfl
      _ = _ := by rw [hdataU]; rfl
  · show from_webcolorChars ((Color.as_webcolor _).data.dropWhile (· == '#')) = _
    rw [hdata]
    rw [dropWhile_hash_cons (hexDigitChar_ne_hash hl1)]
    exact from_webcolorChars_six (hexVal?_hexDigitChar hl1) (hexVal?_hexDigitChar hl2)
      (hexVal?_hexDigitChar hl3) (hexVal?_hexDigitChar hl4) (hexVal?_hexDigitChar hl5)
      (hexVal?_hexDigitChar hl6)

/-- Witness for C7 at the mixed-case digits "1a2B3c". -/
theorem hex_roundtrip_witness :
    ∃ col : Color,
      Color.from_webcolor (String.mk ('#' :: ['1', 'a', '2', 'B', '3', 'c'])) = some col ∧
      Color.from_webcolor (String.mk ['1', 'a', '2', 'B', '3', 'c']) = some col ∧
      Color.as_webcolor col =
        String.mk ('#' :: List.map upperHexChar ['1', 'a', '2', 'B', '3', 'c']) ∧
      Color.from_webcolor (Color.as_webcolor col) = some col :=
  hex_roundtrip '1' 'a' '2' 'B' '3' 'c' (by decide)

/-- C8: the distance is symmetric, vanishes exactly on equal colors, and
satisfies the triangle inequality — the metric laws of Euclidean distance
over the integer channel space. -/
theorem distance_metric_laws (a b c : Color) :
    Color.euclidean_distance a b = Color.euclidean_distance b a ∧
      (Color.euclidean_distance a b = 0 ↔ a = b) ∧
      Color.euclidean_distance a b ≤
        Color.euclidean_distance a c + Color.euclidean_distance c b := by
  refine ⟨?_, ?_, ?_⟩
  · rw [euclidean_eq_dist, euclidean_eq_dist, dist_comm]
  · rw [euclidean_eq_dist, dist_eq_zero]
    exact ⟨fun h => toE3_inj h, fun h => by rw [h]⟩
  · rw [euclidean_eq_dist, euclidean_eq_dist, euclidean_eq_dist]
    exact dist_triangle _ _ _

/-- C9: every (name, color) pair of the Chain is literally one of the
input pairs, and the input maps that name to exactly that color: the
builder never alters, substitutes, or invents a color. -/
theorem chain_entries_from_input (l : List Entry)
    (hs : l.Pairwise (fun a b => a.1 < b.1)) :
    ∀ p ∈ buildChain l, p ∈ l ∧ ∀ q ∈ l, q.1 = p.1 → q = p := by
  obtain ⟨_, _, h3⟩ := buildChain_spec l (keys_nodup_of_sorted hs)
  intro p hp
  refine ⟨h3 p hp, ?_⟩
  intro q hq hqp
  exact eq_of_mem_of_nodup_keys (keys_nodup_of_sorted hs) hq (h3 p hp) hqp

/-- Witness for C9 at the concrete three-color set: the first chain entry
is an input pair. -/
theorem chain_entries_from_input_witness :
    ("A", Color.mk 0 0 0) ∈
      ([("A", Color.mk 0 0 0), ("B", Color.mk 1 1 1), ("C", Color.mk 255 255 255)] :
        List Entry) :=
  ((chain_entries_from_input
    [("A", Color.mk 0 0 0), ("B", Color.mk 1 1 1), ("C", Color.mk 255 255 255)]
    demo_sorted) ("A", Color.mk 0 0 0) (by decide)).1

/-- C10: whenever the parse reads each channel from a 2-hex-digit group,
the resulting channels all lie in `[0, 255]`, and formatting the color
yields exactly two hex digits per channel — a 7-character string —
despite the unchecked `i64` channel type. -/
theorem parsed_channels_byte_range (s : String)
    (h3 : 3 ≤ (chunks2 (s.data.dropWhile (· == '#'))).length)
    (h2 : ∀ ch ∈ (chunks2 (s.data.dropWhile (· == '#'))).take 3,
      ch.length = 2 ∧ ∀ c ∈ ch, isHexDigitChar c) :
    ∃ col, Color.from_webcolor s = some col ∧
      0 ≤ col.red ∧ col.red ≤ 255 ∧ 0 ≤ col.green ∧ col.green ≤ 255 ∧
      0 ≤ col.blue ∧ col.blue ≤ 255 ∧ (Color.as_webcolor col).length = 7 := by
  rcases hch : chunks2 (s.data.dropWhile (· == '#')) with _ | ⟨ch1, l1⟩
  · rw [hch] at h3
    simp at h3
  rcases l1 with _ | ⟨ch2, l2⟩
  · rw [hch] at h3
    simp at h3
  rcases l2 with _ | ⟨ch3, l3⟩
  · rw [hch] at h3
    simp at h3
  have hp1 := h2 ch1 (by rw [hch]; simp)
  have hp2 := h2 ch2 (by rw [hch]; simp)
  have hp3 := h2 ch3 (by rw [hch]; simp)
  obtain ⟨a1, b1, he1⟩ := List.length_eq_two.mp hp1.1
  obtain ⟨a2, b2, he2⟩ := List.length_eq_two.mp hp2.1
  obtain ⟨a3, b3, he3⟩ := List.length_eq_two.mp hp3.1
  subst he1
  subst he2
  subst he3
  obtain ⟨v1, hv1⟩ := Option.isSome_iff_exists.mp
    ((hexVal?_isSome_iff a1).mpr (hp1.2 a1 (by simp)))
  obtain ⟨v2, hv2⟩ := Option.isSome_iff_exists.mp
    ((hexVal?_isSome_iff b1).mpr (hp1.2 b1 (by simp)))
  obtain ⟨v3, hv3⟩ := Option.isSome_iff_exists.mp
    ((hexVal?_isSome_iff a2).mpr (hp2.2 a2 (by simp)))
  obtain ⟨v4, hv4⟩ := Option.isSome_iff_exists.mp
    ((hexVal?_isSome_iff b2).mpr (hp2.2 b2 (by simp)))
  obtain ⟨v5, hv5⟩ := Option.isSome_iff_exists.mp
    ((hexVal?_isSome_iff a3).mpr (hp3.2 a3 (by simp)))
  obtain ⟨v6, hv6⟩ := Option.isSome_iff_exists.mp
    ((hexVal?_isSome_iff b3).mpr (hp3.2 b3 (by simp)))
  have hl1 := hexVal?_lt16 hv1
  have hl2 := hexVal?_lt16 hv2
  have hl3 := hexVal?_lt16 hv3
  have hl4 := hexVal?_lt16 hv4
  have hl5 := hexVal?_lt16 hv5
  have hl6 := hexVal?_lt16 hv6
  have heq : from_webcolorChars (s.data.dropWhile (· == '#')) =
      match fromStrRadix16 [a1, b1], fromStrRadix16 [a2, b2], fromStrRadix16 [a3, b3] with
      | some r, some g, some bl => some ⟨r, g, bl⟩
      | _, _, _ => none := by
    unfold from_webcolorChars
    rw [hch]
  have hb1 : (0 : Int) ≤ Int.ofNat (16 * v1 + v2) := by
    simp only [Int.ofNat_eq_natCast]
    omega
  have hu1 : Int.ofNat (16 * v1 + v2) ≤ (255 : Int) := by
    simp only [Int.ofNat_eq_natCast]
    omega
  have hb2 : (0 : Int) ≤ Int.ofNat (16 * v3 + v4) := by
    simp only [Int.ofNat_eq_natCast]
    omega
  have hu2 : Int.ofNat (16 * v3 + v4) ≤ (255 : Int) := by
    simp only [Int.ofNat_eq_natCast]
    omega
  have hb3 : (0 : Int) ≤ Int.ofNat (16 * v5 + v6) := by
    simp only [Int.ofNat_eq_natCast]
    omega
  have hu3 : Int.ofNat (16 * v5 + v6) ≤ (255 : Int) := by
    simp only [Int.ofNat_eq_natCast]
    omega
  refine ⟨⟨Int.ofNat (16 * v1 + v2), Int.ofNat (16 * v3 + v4), Int.ofNat (16 * v5 + v6)⟩,
    ?_, hb1, hu1, hb2, hu2, hb3, hu3, ?_⟩
  · show from_webcolorChars (s.data.dropWhile (· == '#')) = _
    rw [heq, fromStrRadix16_two hv1 hv2, fromStrRadix16_two hv3 hv4,
      fromStrRadix16_two hv5 hv6]
    rfl
  · have hw1 : Int.ofNat (16 * v1 + v2) < (256 : Int) := by
      simp only [Int.ofNat_eq_natCast]
      omega
    have hw2 : Int.ofNat (16 * v3 + v4) < (256 : Int) := by
      simp only [Int.ofNat_eq_natCast]
      omega
    have hw3 : Int.ofNat (16 * v5 + v6) < (256 : Int) := by
      simp only [Int.ofNat_eq_natCast]
      omega
    have hdata := as_webcolor_data_of_bytes
      ⟨Int.ofNat (16 * v1 + v2), Int.ofNat (16 * v3 + v4), Int.ofNat (16 * v5 + v6)⟩
      hb1 hw1 hb2 hw2 hb3 hw3
    calc (Color.as_webcolor ⟨Int.ofNat (16 * v1 + v2), Int.ofNat (16 * v3 + v4),
          Int.ofNat (16 * v5 + v6)⟩).length
        = (Color.as_webcolor ⟨Int.ofNat (16 * v1 + v2), Int.ofNat (16 * v3 + v4),
          Int.ofNat (16 * v5 + v6)⟩).data.length := rfl
      _ = 7 := by
          rw [hdata]
          rfl

/-- Witness for C10 at the input "#A1B2C3". -/
theorem parsed_channels_byte_range_witness :
    ∃ col, Color.from_webcolor ("#A1B2C3") = some col ∧
      0 ≤ col.red ∧ col.red ≤ 255 ∧ 0 ≤ col.green ∧ col.green ≤ 255 ∧
      0 ≤ col.blue ∧ col.blue ≤ 255 ∧ (Color.as_webcolor col).length = 7 :=
  parsed_channels_byte_range ("#A1B2C3") (by decide) (by decide)

end LanguageColors
